import Mathlib

/-!
Verification of the data-wrangling semantics exercised by
`07-Data Wrangling/data-wrangling.ipynb`.

The notebook is a linear sequence of calls into the pandas library:
`pd.merge` (inner/left/right/outer joins), `pd.concat`, `stack`/`unstack`,
`pd.cut` (binning), outlier capping via `data[np.abs(data) > 3] =
np.sign(data) * 3`, and `pd.get_dummies`.  Each library operation is
embedded below as a pure Lean function on lists of rows, following the
standard relational semantics those calls have (value-equality key
matching, multiset cross-product cardinality, null fill on the unmatched
side), and the notebook's concrete data frames are reproduced as concrete
lists.  Numeric cell values are embedded as `Int`; a missing value (NaN)
is `Option.none`.
-/

/-- A two-column data frame with key column of type `κ`: one row is
`(key, data)`.  This matches `df1 = pd.DataFrame({'key': [...], 'data1':
range(n)})` in the notebook. -/
abbrev Frame (κ : Type) := List (κ × Int)

/-- Number of rows of a keyed row list whose key equals `v`. -/
def keyCount {κ : Type} {α : Type} [DecidableEq κ] (v : κ) (L : List (κ × α)) : Nat :=
  (L.filter fun r => r.1 = v).length

/-- Embedding of `pd.merge(A, B, on='key')` with the default `how='inner'`: for each row
of `A`, pair it with every row of `B` carrying an equal key.  Result row is
`(key, data1, data2)`. -/
def innerJoin {κ : Type} [DecidableEq κ] (A B : Frame κ) : List (κ × Int × Int) :=
  A.flatMap fun a => (B.filter fun b => b.1 = a.1).map fun b => (a.1, a.2, b.2)

/-- Frame `df1` of the notebook: `{'key': ['b','b','a','c','a','a','b'], 'data1': range(7)}`. -/
def df1ex : Frame Char := [('b',0),('b',1),('a',2),('c',3),('a',4),('a',5),('b',6)]

/-- Frame `df3` of the notebook: `{'key': ['a','b','b','d'], 'data2': range(4)}`. -/
def df3ex : Frame Char := [('a',0),('b',1),('b',2),('d',3)]

theorem keyCount_cons {κ α : Type} [DecidableEq κ] (v : κ) (r : κ × α) (L : List (κ × α)) :
    keyCount v (r :: L) = (if r.1 = v then 1 else 0) + keyCount v L := by
  simp only [keyCount, List.filter_cons]
  split_ifs with h <;> simp_all [Nat.add_comm]

theorem keyCount_append {κ α : Type} [DecidableEq κ] (v : κ) (L M : List (κ × α)) :
    keyCount v (L ++ M) = keyCount v L + keyCount v M := by
  simp [keyCount, List.filter_append]

theorem keyCount_innerJoin_block {κ : Type} [DecidableEq κ] (v : κ) (a : κ × Int)
    (B : Frame κ) :
    keyCount v ((B.filter fun b => b.1 = a.1).map fun b => (a.1, a.2, b.2)) =
      (if a.1 = v then 1 else 0) * keyCount v B := by
  induction B with
  | nil => simp [keyCount]
  | cons b B ih =>
      by_cases hb : b.1 = a.1
      · rw [show (b :: B).filter (fun x => decide (x.1 = a.1)) =
              b :: B.filter (fun x => decide (x.1 = a.1)) by simp [List.filter_cons, hb]]
        rw [List.map_cons, keyCount_cons, ih, keyCount_cons]
        by_cases hv : a.1 = v
        · simp [hv, hb.trans hv, Nat.mul_comm]
        · simp [hv, hb, fun h => hv (hb ▸ h)]

      · rw [show (b :: B).filter (fun x => decide (x.1 = a.1)) =
              B.filter (fun x => decide (x.1 = a.1)) by simp [List.filter_cons, hb]]
        rw [ih, keyCount_cons]
        by_cases hbv : b.1 = v
        · by_cases hv : a.1 = v
          · exact absurd (hbv.trans hv.symm) hb
          · simp [hv]
        · simp [hbv]

/-- Per-key cardinality of the inner join: if `v` occurs `p` times in `A`
and `q` times in `B`, the join holds `p * q` rows for `v`. -/
theorem keyCount_innerJoin {κ : Type} [DecidableEq κ] (A B : Frame κ) (v : κ) :
    keyCount v (innerJoin A B) = keyCount v A * keyCount v B := by
  induction A with
  | nil => simp [innerJoin, keyCount]
  | cons a A ih =>
      rw [innerJoin, List.flatMap_cons, keyCount_append, ← innerJoin, ih,
        keyCount_innerJoin_block, keyCount_cons, Nat.add_mul]

/-- C1: the inner join realises the multiset cross-product rule — for every
key value `v` appearing `p` times in `A` and `q` times in `B`, the result
holds exactly `p * q` rows with key `v`; on the notebook's frames
`df1` (keys b,b,a,c,a,a,b) and `df3` (keys a,b,b,d), the inner join has
exactly 9 rows and none of them carries key 'c' or 'd'. -/
theorem innerJoin_cross_product_rule :
    (∀ (κ : Type) [DecidableEq κ] (A B : Frame κ) (v : κ),
        keyCount v (innerJoin A B) = keyCount v A * keyCount v B) ∧
    (innerJoin df1ex df3ex).length = 9 ∧
    ((innerJoin df1ex df3ex).all fun r => !(r.1 = 'c') && !(r.1 = 'd')) = true := by
  refine ⟨fun κ _ A B v => keyCount_innerJoin A B v, by decide, by decide⟩

/-- Embedding of `pd.merge(A, B, on='key', how='left')`: every row of `A` is kept; a row
whose key matches no row of `B` gets `NaN` (here `none`) in the column
contributed by `B`, otherwise it is paired with every matching row of `B`. -/
def leftJoin {κ : Type} [DecidableEq κ] (A B : Frame κ) : List (κ × Int × Option Int) :=
  A.flatMap fun a =>
    if (B.filter fun b => b.1 = a.1).isEmpty then [(a.1, a.2, none)]
    else (B.filter fun b => b.1 = a.1).map fun b => (a.1, a.2, some b.2)

/-- C2 counterexample: on the notebook's own frames `df1` (7 rows) and
`df3` (keys a,b,b,d — key 'b' occurs twice), `pd.merge(df1, df3, on='key',
how='left')` has 10 rows, not `len(df1) = 7`. -/
theorem leftJoin_count_ne_left_count :
    (leftJoin df1ex df3ex).length = 10 ∧ df1ex.length = 7 ∧
    (leftJoin df1ex df3ex).length ≠ df1ex.length := by decide

theorem leftJoin_block_length {κ : Type} [DecidableEq κ] (a : κ × Int) (B : Frame κ) :
    (if (B.filter fun b => b.1 = a.1).isEmpty then [(a.1, a.2, (none : Option Int))]
     else (B.filter fun b => b.1 = a.1).map fun b => (a.1, a.2, some b.2)).length
      = max 1 (keyCount a.1 B) := by
  by_cases h : (B.filter fun b => b.1 = a.1).isEmpty = true
  · rw [if_pos h]
    rw [List.isEmpty_iff] at h
    simp [keyCount, h]
  · rw [if_neg h]
    have h' : (B.filter fun b => b.1 = a.1) ≠ [] := fun he => h (by simp [he])
    have hl : 0 < (B.filter fun b => b.1 = a.1).length := List.length_pos.mpr h'
    simp only [List.length_map, keyCount]
    omega

/-- Row count of the left join: each row of `A` contributes
`max 1 (number of matches in B)` rows. -/
theorem leftJoin_length {κ : Type} [DecidableEq κ] (A B : Frame κ) :
    (leftJoin A B).length = (A.map fun a => max 1 (keyCount a.1 B)).sum := by
  induction A with
  | nil => rfl
  | cons a A ih =>
      rw [leftJoin, List.flatMap_cons, List.length_append, ← leftJoin, ih, List.map_cons,
        List.sum_cons, leftJoin_block_length]

/-- C2 (amended): the left-join row count is the sum over rows `a` of `A`
of `max 1 (count of a.key in B)`; in particular it is at least the row
count of `A`, with equality exactly when no key of `A` occurs more than
once in `B`. -/
theorem leftJoin_count_formula :
    (∀ (κ : Type) [DecidableEq κ] (A B : Frame κ),
        (leftJoin A B).length = (A.map fun a => max 1 (keyCount a.1 B)).sum ∧
        A.length ≤ (leftJoin A B).length ∧
        ((leftJoin A B).length = A.length ↔ ∀ a ∈ A, keyCount a.1 B ≤ 1)) := by
  intro κ _ A B
  refine ⟨leftJoin_length A B, ?_, ?_⟩
  · rw [leftJoin_length]
    calc A.length = (A.map fun a => max 1 (keyCount a.1 B)).length := by simp
    _ ≤ (A.map fun a => max 1 (keyCount a.1 B)).sum := by
        apply List.length_le_sum_of_one_le
        intro x hx
        obtain ⟨a, _, rfl⟩ := List.mem_map.mp hx
        exact Nat.le_max_left 1 _
  · rw [leftJoin_length]
    induction A with
    | nil => simp
    | cons a A ih =>
        simp only [List.map_cons, List.sum_cons, List.length_cons, List.mem_cons]
        constructor
        · intro h
          intro x hx
          rcases hx with rfl | hx
          · by_contra hgt
            push_neg at hgt
            have h1 : A.length ≤ (A.map fun a => max 1 (keyCount a.1 B)).sum := by
              calc A.length = (A.map fun a => max 1 (keyCount a.1 B)).length := by simp
              _ ≤ _ := by
                  apply List.length_le_sum_of_one_le
                  intro y hy
                  obtain ⟨b, _, rfl⟩ := List.mem_map.mp hy
                  exact Nat.le_max_left 1 _
            have h2 : 2 ≤ max 1 (keyCount x.1 B) := le_trans hgt (Nat.le_max_right 1 _)
            omega
          · have h1 : 1 ≤ max 1 (keyCount a.1 B) := Nat.le_max_left 1 _
            have h2 : A.length ≤ (A.map fun a => max 1 (keyCount a.1 B)).sum := by
              calc A.length = (A.map fun a => max 1 (keyCount a.1 B)).length := by simp
              _ ≤ _ := by
                  apply List.length_le_sum_of_one_le
                  intro y hy
                  obtain ⟨b, _, rfl⟩ := List.mem_map.mp hy
                  exact Nat.le_max_left 1 _
            have : (A.map fun a => max 1 (keyCount a.1 B)).sum = A.length := by omega
            exact (ih.mp this) x hx
        · intro h
          have ha : max 1 (keyCount a.1 B) = 1 := by
            have := h a (Or.inl rfl)
            omega
          have hA : (A.map fun a => max 1 (keyCount a.1 B)).sum = A.length :=
            ih.mpr fun x hx => h x (Or.inr hx)
          omega

/-- C2 amended, instantiated on the notebook's `df1`/`df3`. -/
theorem leftJoin_count_formula_witness :
    (leftJoin df1ex df3ex).length = (df1ex.map fun a => max 1 (keyCount a.1 df3ex)).sum ∧
    df1ex.length ≤ (leftJoin df1ex df3ex).length :=
  ⟨(leftJoin_count_formula Char df1ex df3ex).1, (leftJoin_count_formula Char df1ex df3ex).2.1⟩

/-- C3: the left join keeps every row of `A`, and a row of `A` whose key
does not occur in `B` appears with `none` in the column contributed by
`B`. -/
theorem leftJoin_retains {κ : Type} [DecidableEq κ] (A B : Frame κ) (a : κ × Int)
    (ha : a ∈ A) :
    (∃ x, (a.1, a.2, x) ∈ leftJoin A B) ∧
    (a.1 ∉ B.map Prod.fst → (a.1, a.2, (none : Option Int)) ∈ leftJoin A B) := by
  constructor
  · by_cases h : (B.filter fun b => b.1 = a.1).isEmpty = true
    · exact ⟨none, List.mem_flatMap.mpr ⟨a, ha, by
        rw [if_pos h]; exact List.mem_singleton.mpr rfl⟩⟩
    · have h' : (B.filter fun b => b.1 = a.1) ≠ [] := fun he => h (by simp [he])
      obtain ⟨b, hb⟩ := List.exists_mem_of_ne_nil _ h'
      exact ⟨some b.2, List.mem_flatMap.mpr ⟨a, ha, by
        rw [if_neg h]; exact List.mem_map.mpr ⟨b, hb, rfl⟩⟩⟩
  · intro hnot
    have hf : (B.filter fun b => b.1 = a.1) = [] := by
      rw [List.filter_eq_nil_iff]
      intro b hb
      simp only [decide_eq_true_eq]
      intro he
      exact hnot (List.mem_map.mpr ⟨b, hb, he⟩)
    refine List.mem_flatMap.mpr ⟨a, ha, ?_⟩
    rw [hf]
    simp

/-- C3, instantiated: the unmatched row `('c', 3)` survives a left join
against a frame without key 'c', with `none` in the `B` column. -/
theorem leftJoin_retains_witness :
    ('c', (3:Int), (none : Option Int)) ∈ leftJoin [('c',(3:Int))] [('a',(0:Int))] :=
  (leftJoin_retains [('c',(3:Int))] [('a',(0:Int))] ('c',3) (by decide)).2 (by decide)

/-- Embedding of `pd.merge(A, B, on='key', how='outer')`: the left-join rows of `A`
against `B` (with `none` filling the right side of unmatched rows of `A`),
followed by the rows of `B` whose key does not occur in `A`, with `none`
filling the left side. -/
def outerJoin {κ : Type} [DecidableEq κ] (A B : Frame κ) :
    List (κ × Option Int × Option Int) :=
  (A.flatMap fun a =>
    if (B.filter fun b => b.1 = a.1).isEmpty then [(a.1, some a.2, none)]
    else (B.filter fun b => b.1 = a.1).map fun b => (a.1, some a.2, some b.2))
  ++ ((B.filter fun b => b.1 ∉ A.map Prod.fst).map fun b => (b.1, none, some b.2))

/-- The multiset-union cardinality of the two key columns, following the
spec's words "|A ∪ B| accounting for multiplicities on each side": each
distinct key contributes the larger of its two occurrence counts. -/
def keyUnionCard {κ : Type} [DecidableEq κ] (A B : Frame κ) : Nat :=
  ((A.map Prod.fst ++ B.map Prod.fst).dedup.map fun v =>
    max (keyCount v A) (keyCount v B)).sum

/-- Frame with keys b,b,b used to refute the outer-join cardinality claim. -/
def exA3 : Frame Char := [('b',0),('b',1),('b',2)]

/-- Frame with keys b,b used to refute the outer-join cardinality claim. -/
def exB2 : Frame Char := [('b',0),('b',1)]

/-- C4 counterexample: for keys A = [b,b,b] and B = [b,b] the outer join
has 3 × 2 = 6 rows, while the multiset union |A ∪ B| has cardinality 3
(and even the sum of the row counts is only 5). -/
theorem outerJoin_count_ne_union_card :
    (outerJoin exA3 exB2).length = 6 ∧ keyUnionCard exA3 exB2 = 3 ∧
    exA3.length + exB2.length = 5 ∧
    (outerJoin exA3 exB2).length ≠ keyUnionCard exA3 exB2 := by decide

theorem keyCount_ne_zero_iff {κ α : Type} [DecidableEq κ] (v : κ) (L : List (κ × α)) :
    keyCount v L ≠ 0 ↔ v ∈ L.map Prod.fst := by
  rw [keyCount, Ne, List.length_eq_zero, List.filter_eq_nil_iff]
  simp only [decide_eq_true_eq, List.mem_map]
  constructor
  · intro h
    push_neg at h
    obtain ⟨r, hr, he⟩ := h
    exact ⟨r, hr, he⟩
  · rintro ⟨r, hr, rfl⟩ h
    exact h r hr rfl

theorem keyCount_outer_map_block {κ : Type} [DecidableEq κ] (v : κ) (a : κ × Int)
    (B : Frame κ) :
    keyCount v ((B.filter fun b => b.1 = a.1).map fun b => (a.1, some a.2, some b.2)) =
      (if a.1 = v then 1 else 0) * keyCount v B := by
  induction B with
  | nil => simp [keyCount]
  | cons b B ih =>
      by_cases hb : b.1 = a.1
      · rw [show (b :: B).filter (fun x => decide (x.1 = a.1)) =
              b :: B.filter (fun x => decide (x.1 = a.1)) by simp [List.filter_cons, hb]]
        rw [List.map_cons, keyCount_cons, ih, keyCount_cons]
        by_cases hv : a.1 = v
        · simp [hv, hb.trans hv, Nat.mul_comm]
        · simp [hv, hb, fun h => hv (hb ▸ h)]
      · rw [show (b :: B).filter (fun x => decide (x.1 = a.1)) =
              B.filter (fun x => decide (x.1 = a.1)) by simp [List.filter_cons, hb]]
        rw [ih, keyCount_cons]
        by_cases hbv : b.1 = v
        · by_cases hv : a.1 = v
          · exact absurd (hbv.trans hv.symm) hb
          · simp [hv]
        · simp [hbv]

theorem keyCount_outer_block {κ : Type} [DecidableEq κ] (v : κ) (a : κ × Int)
    (B : Frame κ) :
    keyCount v (if (B.filter fun b => b.1 = a.1).isEmpty
        then [(a.1, some a.2, (none : Option Int))]
        else (B.filter fun b => b.1 = a.1).map fun b => (a.1, some a.2, some b.2)) =
      if a.1 = v then max 1 (keyCount v B) else 0 := by
  by_cases h : (B.filter fun b => b.1 = a.1).isEmpty = true
  · rw [if_pos h]
    rw [List.isEmpty_iff] at h
    by_cases hv : a.1 = v
    · subst hv
      simp [keyCount, h, keyCount_cons]
    · simp [keyCount_cons, hv, keyCount]
  · rw [if_neg h, keyCount_outer_map_block]
    have h' : (B.filter fun b => b.1 = a.1) ≠ [] := fun he => h (by simp [he])
    have hl : 0 < (B.filter fun b => b.1 = a.1).length := List.length_pos.mpr h'
    by_cases hv : a.1 = v
    · subst hv
      have hq : 0 < keyCount a.1 B := hl
      simp only [if_pos rfl, Nat.one_mul]
      have hmax : max 1 (keyCount a.1 B) = keyCount a.1 B := by omega
      simp [hmax]
    · simp [hv]

theorem keyCount_outer_left {κ : Type} [DecidableEq κ] (A B : Frame κ) (v : κ) :
    keyCount v (A.flatMap fun a =>
      if (B.filter fun b => b.1 = a.1).isEmpty
        then [(a.1, some a.2, (none : Option Int))]
        else (B.filter fun b => b.1 = a.1).map fun b => (a.1, some a.2, some b.2)) =
      keyCount v A * max 1 (keyCount v B) := by
  induction A with
  | nil => simp [keyCount]
  | cons a A ih =>
      rw [List.flatMap_cons, keyCount_append, ih, keyCount_outer_block, keyCount_cons,
        Nat.add_mul]
      by_cases hv : a.1 = v
      · simp [hv]
      · simp [hv]

theorem keyCount_outer_right {κ : Type} [DecidableEq κ] (v : κ) (A B : Frame κ) :
    keyCount v ((B.filter fun b => b.1 ∉ A.map Prod.fst).map
        fun b => (b.1, (none : Option Int), some b.2)) =
      if v ∈ A.map Prod.fst then 0 else keyCount v B := by
  induction B with
  | nil =>
      simp only [List.filter_nil, List.map_nil]
      split <;> rfl
  | cons b B ih =>
      by_cases hb : b.1 ∈ A.map Prod.fst
      · have hf : ((b :: B).filter fun x => x.1 ∉ A.map Prod.fst) =
            B.filter fun x => x.1 ∉ A.map Prod.fst := by
          simp [List.filter_cons, hb]
        rw [hf, ih]
        by_cases hv : v ∈ A.map Prod.fst
        · simp [hv]
        · have hne : ¬ b.1 = v := fun he => hv (he ▸ hb)
          simp [hv, keyCount_cons, hne]
      · have hf : ((b :: B).filter fun x => x.1 ∉ A.map Prod.fst) =
            b :: B.filter fun x => x.1 ∉ A.map Prod.fst := by
          simp [List.filter_cons, hb]
        rw [hf, List.map_cons, keyCount_cons, ih, keyCount_cons]
        by_cases hv : v ∈ A.map Prod.fst
        · have hne : ¬ b.1 = v := fun he => hb (he ▸ hv)
          simp [hv, hne]
        · simp [hv]

/-- Per-key cardinality of the outer join: `p * q` for a shared key,
`p + q` (one of which is zero) otherwise. -/
theorem keyCount_outerJoin {κ : Type} [DecidableEq κ] (A B : Frame κ) (v : κ) :
    keyCount v (outerJoin A B) =
      if keyCount v A ≠ 0 ∧ keyCount v B ≠ 0 then keyCount v A * keyCount v B
      else keyCount v A + keyCount v B := by
  rw [outerJoin, keyCount_append, keyCount_outer_left, keyCount_outer_right]
  by_cases hq : keyCount v B = 0
  · have hm : max 1 (keyCount v B) = 1 := by omega
    rw [hm, hq]
    by_cases hp : v ∈ A.map Prod.fst
    · simp [hp, hq]
    · simp [hp, hq]
  · have hm : max 1 (keyCount v B) = keyCount v B := by omega
    rw [hm]
    by_cases hp : v ∈ A.map Prod.fst
    · have hp' : keyCount v A ≠ 0 := (keyCount_ne_zero_iff v A).mpr hp
      simp [hp, hp', hq]
    · have hp' : keyCount v A = 0 := by
        by_contra hc
        exact hp ((keyCount_ne_zero_iff v A).mp hc)
      simp [hp, hp', hq]

/-- C4 (amended): every key value appearing in either input appears in the
outer-join output, with `none` filling whichever side lacks a match; the
row count for a key shared by both sides is `p * q` (multiset
cross-product), and for a one-sided key it is that side's count, so the
total is the sum of these, not the multiset-union cardinality. -/
theorem outerJoin_semantics :
    ∀ (κ : Type) [DecidableEq κ] (A B : Frame κ),
      (∀ v : κ, keyCount v (outerJoin A B) =
        if keyCount v A ≠ 0 ∧ keyCount v B ≠ 0 then keyCount v A * keyCount v B
        else keyCount v A + keyCount v B) ∧
      (∀ a ∈ A, a.1 ∉ B.map Prod.fst →
        (a.1, some a.2, (none : Option Int)) ∈ outerJoin A B) ∧
      (∀ b ∈ B, b.1 ∉ A.map Prod.fst →
        (b.1, (none : Option Int), some b.2) ∈ outerJoin A B) ∧
      (∀ v : κ, v ∈ A.map Prod.fst ∨ v ∈ B.map Prod.fst →
        ∃ r ∈ outerJoin A B, r.1 = v) := by
  intro κ _ A B
  refine ⟨keyCount_outerJoin A B, ?_, ?_, ?_⟩
  · intro a ha hnot
    have hf : (B.filter fun b => b.1 = a.1) = [] := by
      rw [List.filter_eq_nil_iff]
      intro b hb
      simp only [decide_eq_true_eq]
      exact fun he => hnot (List.mem_map.mpr ⟨b, hb, he⟩)
    refine List.mem_append_left _ (List.mem_flatMap.mpr ⟨a, ha, ?_⟩)
    rw [hf]
    simp
  · intro b hb hnot
    refine List.mem_append_right _ (List.mem_map.mpr ⟨b, ?_, rfl⟩)
    rw [List.mem_filter]
    exact ⟨hb, by simpa using hnot⟩
  · intro v hv
    have hne : keyCount v (outerJoin A B) ≠ 0 := by
      rw [keyCount_outerJoin]
      rcases hv with hv | hv
      · have hp : keyCount v A ≠ 0 := (keyCount_ne_zero_iff v A).mpr hv
        by_cases hq : keyCount v B ≠ 0
        · rw [if_pos ⟨hp, hq⟩]
          exact Nat.mul_ne_zero hp hq
        · rw [if_neg fun hc => hq hc.2]
          omega
      · have hq : keyCount v B ≠ 0 := (keyCount_ne_zero_iff v B).mpr hv
        by_cases hp : keyCount v A ≠ 0
        · rw [if_pos ⟨hp, hq⟩]
          exact Nat.mul_ne_zero hp hq
        · rw [if_neg fun hc => hp hc.1]
          omega
    have := (keyCount_ne_zero_iff v (outerJoin A B)).mp hne
    obtain ⟨r, hr, he⟩ := List.mem_map.mp this
    exact ⟨r, hr, he⟩

/-- C4 amended, instantiated: joining `[('c', 3)]` with `[('b',0),('b',1)]`
outer yields two rows for the right-only key 'b', and the rows
`('c', some 3, none)` and `('b', none, some 0)` are present. -/
theorem outerJoin_semantics_witness :
    keyCount 'b' (outerJoin [('c',(3:Int))] [('b',(0:Int)),('b',1)]) = 2 ∧
    ('c', some (3:Int), (none : Option Int)) ∈
      outerJoin [('c',(3:Int))] [('b',(0:Int)),('b',1)] ∧
    ('b', (none : Option Int), some (0:Int)) ∈
      outerJoin [('c',(3:Int))] [('b',(0:Int)),('b',1)] := by
  have h := outerJoin_semantics Char [('c',(3:Int))] [('b',(0:Int)),('b',1)]
  refine ⟨?_, h.2.1 ('c',3) (by decide) (by decide), h.2.2.1 ('b',0) (by decide) (by decide)⟩
  rw [h.1 'b']
  decide


/-- Embedding of `np.sign`: `1` on positives, `-1` on negatives, `0` at zero. -/
def npSign (v : Int) : Int :=
  if v > 0 then 1 else if v < 0 then -1 else 0

/-- The capping assignment `data[np.abs(data) > 3] = np.sign(data) * 3`,
applied cell-wise with a general threshold `T` in the role of `3`: a cell
whose absolute value exceeds `T` is replaced by `np.sign(v) * T`, any other
cell is left as it is. -/
def capCell (T : Int) (v : Int) : Int :=
  if |v| > T then npSign v * T else v

/-- The capping assignment applied to a whole column of values. -/
def capColumn (T : Int) (data : List Int) : List Int :=
  data.map (capCell T)

/-- C7: the capped column has the same length, and cell-wise: a cell whose
absolute value exceeded `T` holds `sign(v) * T` afterwards, and any other
cell is unchanged. -/
theorem capColumn_spec :
    ∀ (T : Int) (data : List Int) (i : Nat),
      (capColumn T data).length = data.length ∧
      (∀ v, data[i]? = some v →
        (|v| > T → (capColumn T data)[i]? = some (npSign v * T)) ∧
        (|v| ≤ T → (capColumn T data)[i]? = some v)) := by
  intro T data i
  refine ⟨by simp [capColumn], ?_⟩
  intro v hv
  have hm : (capColumn T data)[i]? = some (capCell T v) := by
    rw [capColumn, List.getElem?_map, hv, Option.map_some']
  constructor
  · intro h
    rw [hm, capCell, if_pos h]
  · intro h
    rw [hm, capCell, if_neg (by omega)]

/-- C7, instantiated at the notebook's threshold 3 on the column
`[5, -4, 2]`: the outlier cell 0 becomes `sign 5 * 3` and the inlier cell 2
stays `2`. -/
theorem capColumn_spec_witness :
    (capColumn 3 [5, -4, 2]).length = 3 ∧
    (capColumn 3 [5, -4, 2])[0]? = some (npSign 5 * 3) ∧
    (capColumn 3 [5, -4, 2])[2]? = some 2 := by
  have h0 := capColumn_spec 3 [5, -4, 2] 0
  have h2 := capColumn_spec 3 [5, -4, 2] 2
  exact ⟨h0.1, (h0.2 5 rfl).1 (by decide), (h2.2 2 rfl).2 (by decide)⟩

theorem capCell_idem (T : Int) (hT : 0 ≤ T) (v : Int) :
    capCell T (capCell T v) = capCell T v := by
  by_cases h : |v| > T
  · have h1 : capCell T v = npSign v * T := by rw [capCell, if_pos h]
    rw [h1]
    by_cases hv : v > 0
    · have hs : npSign v = 1 := by rw [npSign, if_pos hv]
      rw [hs, one_mul, capCell, if_neg (by rw [abs_of_nonneg hT]; omega)]
    · have hv' : v < 0 := by
        rcases lt_trichotomy v 0 with h1 | h1 | h1
        · exact h1
        · exfalso
          subst h1
          simp only [abs_zero] at h
          omega
        · exact absurd h1 hv
      have hs : npSign v = -1 := by rw [npSign, if_neg hv, if_pos hv']
      rw [hs, neg_one_mul, capCell, if_neg (by rw [abs_neg, abs_of_nonneg hT]; omega)]
  · have h1 : capCell T v = v := by rw [capCell, if_neg h]
    rw [h1, h1]

/-- C10: capping at a nonnegative threshold `T` (the notebook uses `T = 3`)
is idempotent on every column of values. -/
theorem capColumn_idempotent :
    ∀ (T : Int), 0 ≤ T → ∀ (data : List Int),
      capColumn T (capColumn T data) = capColumn T data := by
  intro T hT data
  simp only [capColumn, List.map_map]
  apply List.map_congr_left
  intro v _
  exact capCell_idem T hT v

/-- C10, instantiated at threshold 3 on `[5, -4, 2, 0, 3]`. -/
theorem capColumn_idempotent_witness :
    capColumn 3 (capColumn 3 [5, -4, 2, 0, 3]) = capColumn 3 [5, -4, 2, 0, 3] :=
  capColumn_idempotent 3 (by decide) [5, -4, 2, 0, 3]

/-- Embedding of `pd.cut(values, bins, right)`: the index of the interval
of consecutive bin edges containing `v`.  With `right = true` (the
default), bin `i` is the right-closed interval `(bins[i], bins[i+1]]`;
with `right = false` it is the left-closed interval `[bins[i], bins[i+1])`.
A value outside every bin is unassigned (`none`), matching pandas' NaN
category. -/
def cutIdx (edges : List Int) (r : Bool) (v : Int) : Option Nat :=
  match edges with
  | a :: b :: rest =>
      if (if r then a < v ∧ v ≤ b else a ≤ v ∧ v < b) then some 0
      else (cutIdx (b :: rest) r v).map (· + 1)
  | _ => none

theorem sorted_getD_zero_lt {l : List Int} (hs : l.Sorted (· < ·)) {n : Nat}
    (h0 : 0 < n) (hn : n < l.length) : l.getD 0 0 < l.getD n 0 := by
  match l, n with
  | x :: xs, Nat.succ m =>
      rw [List.getD_cons_zero, List.getD_cons_succ]
      have hm : m < xs.length := by
        simp only [List.length_cons] at hn
        omega
      rw [List.getD_eq_getElem xs 0 hm]
      exact (List.sorted_cons.mp hs).1 _ (List.getElem_mem hm)

theorem cutIdx_right_edge : ∀ (i : Nat) (edges : List Int),
    edges.Sorted (· < ·) → 0 < i → i + 1 < edges.length →
    cutIdx edges true (edges.getD i 0) = some (i - 1) := by
  intro i
  induction i with
  | zero => intro edges _ h0 _; omega
  | succ n ih =>
      intro edges hs h0 h2
      match edges with
      | a :: b :: rest =>
        rw [cutIdx]
        match n with
        | 0 =>
            have hab : a < b := (List.sorted_cons.mp hs).1 b (by simp)
            rw [List.getD_cons_succ, List.getD_cons_zero, if_pos (by simp [hab])]
        | Nat.succ m =>
            have htail : (b :: rest).Sorted (· < ·) := (List.sorted_cons.mp hs).2
            have hv : (a :: b :: rest).getD (m + 2) 0 = (b :: rest).getD (m + 1) 0 :=
              List.getD_cons_succ
            have hbv : b < (b :: rest).getD (m + 1) 0 := by
              have hlt := sorted_getD_zero_lt htail (Nat.succ_pos m)
                (by simp only [List.length_cons] at h2 ⊢; omega)
              rwa [List.getD_cons_zero] at hlt
            rw [hv, if_neg (fun hcon => absurd hcon.2 (not_le.mpr hbv))]
            rw [ih (b :: rest) htail (Nat.succ_pos m)
              (by simp only [List.length_cons] at h2 ⊢; omega)]
            rfl

theorem cutIdx_left_edge : ∀ (i : Nat) (edges : List Int),
    edges.Sorted (· < ·) → 0 < i → i + 1 < edges.length →
    cutIdx edges false (edges.getD i 0) = some i := by
  intro i
  induction i with
  | zero => intro edges _ h0 _; omega
  | succ n ih =>
      intro edges hs h0 h2
      match edges with
      | a :: b :: rest =>
        rw [cutIdx]
        match n with
        | 0 =>
            match rest, h2 with
            | c :: rest', _ =>
              have hbc : b < c := ((List.sorted_cons.mp hs).2 |> List.sorted_cons.mp).1 c (by simp)
              rw [List.getD_cons_succ, List.getD_cons_zero,
                if_neg (by simp), cutIdx, if_pos (by simp [hbc])]
              rfl
        | Nat.succ m =>
            have htail : (b :: rest).Sorted (· < ·) := (List.sorted_cons.mp hs).2
            have hv : (a :: b :: rest).getD (m + 2) 0 = (b :: rest).getD (m + 1) 0 :=
              List.getD_cons_succ
            have hbv : b < (b :: rest).getD (m + 1) 0 := by
              have hlt := sorted_getD_zero_lt htail (Nat.succ_pos m)
                (by simp only [List.length_cons] at h2 ⊢; omega)
              rwa [List.getD_cons_zero] at hlt
            rw [hv, if_neg (fun hcon => absurd hcon.2 (not_lt.mpr (le_of_lt hbv)))]
            rw [ih (b :: rest) htail (Nat.succ_pos m)
              (by simp only [List.length_cons] at h2 ⊢; omega)]
            rfl

/-- C6: for strictly increasing bin edges and an interior edge
`v = edges[i]` (`0 < i`, `i + 1 < edges.length`), right-closed binning
(`right=True`, the pandas default) assigns `v` to the lower interval
`i - 1`, while left-closed binning (`right=False`) assigns the same `v`
to the upper interval `i`. -/
theorem cut_boundary_inclusivity :
    ∀ (edges : List Int), edges.Sorted (· < ·) →
      ∀ i : Nat, 0 < i → i + 1 < edges.length →
        cutIdx edges true (edges.getD i 0) = some (i - 1) ∧
        cutIdx edges false (edges.getD i 0) = some i :=
  fun edges hs i h0 h2 =>
    ⟨cutIdx_right_edge i edges hs h0 h2, cutIdx_left_edge i edges hs h0 h2⟩

/-- C6, instantiated on the notebook's bins `[18, 25, 35, 60, 100]` and the
boundary value 25: right-closed binning puts 25 in `(18, 25]` (bin 0),
left-closed binning in `[25, 35)` (bin 1). -/
theorem cut_boundary_inclusivity_witness :
    cutIdx [18, 25, 35, 60, 100] true 25 = some 0 ∧
    cutIdx [18, 25, 35, 60, 100] false 25 = some 1 := by
  have h := cut_boundary_inclusivity [18, 25, 35, 60, 100] (by decide) 1 (by decide) (by decide)
  exact ⟨h.1, h.2⟩

/-- First-occurrence deduplication, used for the distinct categories of a
column and for recovering row/column labels from a stacked series. -/
def firstDedup {α : Type} [DecidableEq α] (l : List α) : List α :=
  l.foldl (fun acc a => if a ∈ acc then acc else acc ++ [a]) []

theorem firstDedup_go_mem {α : Type} [DecidableEq α] :
    ∀ (l acc : List α) (x : α),
      (x ∈ l.foldl (fun acc a => if a ∈ acc then acc else acc ++ [a]) acc ↔
        x ∈ acc ∨ x ∈ l) := by
  intro l
  induction l with
  | nil => intro acc x; simp
  | cons a l ih =>
      intro acc x
      rw [List.foldl_cons, ih]
      by_cases ha : a ∈ acc
      · rw [if_pos ha]
        simp only [List.mem_cons]
        constructor
        · rintro (h | h)
          · exact Or.inl h
          · exact Or.inr (Or.inr h)
        · rintro (h | h | h)
          · exact Or.inl h
          · exact Or.inl (h ▸ ha)
          · exact Or.inr h
      · rw [if_neg ha]
        simp [List.mem_append, or_assoc]

theorem firstDedup_go_nodup {α : Type} [DecidableEq α] :
    ∀ (l acc : List α), acc.Nodup →
      (l.foldl (fun acc a => if a ∈ acc then acc else acc ++ [a]) acc).Nodup := by
  intro l
  induction l with
  | nil => intro acc hnd; exact hnd
  | cons a l ih =>
      intro acc hnd
      by_cases ha : a ∈ acc
      · rw [List.foldl_cons, if_pos ha]
        exact ih acc hnd
      · rw [List.foldl_cons, if_neg ha]
        apply ih
        rw [List.nodup_append]
        refine ⟨hnd, List.nodup_singleton a, ?_⟩
        intro x hx hxa
        rw [List.mem_singleton] at hxa
        exact ha (hxa ▸ hx)

theorem mem_firstDedup {α : Type} [DecidableEq α] (l : List α) (x : α) :
    x ∈ firstDedup l ↔ x ∈ l := by
  rw [firstDedup, firstDedup_go_mem]
  simp

theorem firstDedup_nodup {α : Type} [DecidableEq α] (l : List α) :
    (firstDedup l).Nodup :=
  firstDedup_go_nodup l [] List.nodup_nil

/-- Embedding of `pd.get_dummies(col)`: the distinct category values of
`col` (pandas presents them in sorted order; first-occurrence order is
used here, on which the stated properties do not depend), and for each
entry of `col` one indicator row holding 1 in that entry's category column
and 0 elsewhere. -/
def getDummies {κ : Type} [DecidableEq κ] (col : List κ) : List κ × List (List Nat) :=
  (firstDedup col,
    col.map fun v => (firstDedup col).map fun c => if v = c then 1 else 0)

theorem indicator_count_zero {κ : Type} [DecidableEq κ] (v : κ) (cats : List κ)
    (hv : v ∉ cats) :
    (cats.map fun c => if v = c then (1:Nat) else 0).count 1 = 0 := by
  induction cats with
  | nil => rfl
  | cons c cs ih =>
      have hvc : ¬ v = c := fun h => hv (h ▸ List.mem_cons_self c cs)
      rw [List.map_cons, if_neg hvc, List.count_cons,
        if_neg (by decide : ¬ ((0:Nat) == 1) = true),
        ih fun h => hv (List.mem_cons_of_mem c h)]

theorem indicator_count_one {κ : Type} [DecidableEq κ] (v : κ) (cats : List κ)
    (hnd : cats.Nodup) (hv : v ∈ cats) :
    (cats.map fun c => if v = c then (1:Nat) else 0).count 1 = 1 := by
  induction cats with
  | nil => cases hv
  | cons c cs ih =>
      obtain ⟨hc, hcs⟩ := List.nodup_cons.mp hnd
      rcases List.mem_cons.mp hv with rfl | hvm
      · rw [List.map_cons, if_pos rfl, List.count_cons,
          if_pos (by decide : ((1:Nat) == 1) = true), indicator_count_zero v cs hc]
      · have hvc : ¬ v = c := fun h => hc (h ▸ hvm)
        rw [List.map_cons, if_neg hvc, List.count_cons,
          if_neg (by decide : ¬ ((0:Nat) == 1) = true), ih hcs hvm]

/-- C8: dummy-variable encoding of a column yields one indicator column
per distinct value (the category list has no duplicates and carries
exactly the values of the column), one row per entry, and every row is a
0/1 vector of the right width holding exactly one 1. -/
theorem getDummies_spec :
    ∀ (κ : Type) [DecidableEq κ] (col : List κ),
      (getDummies col).1.Nodup ∧
      (∀ c, c ∈ (getDummies col).1 ↔ c ∈ col) ∧
      (getDummies col).2.length = col.length ∧
      ∀ row ∈ (getDummies col).2,
        row.length = (getDummies col).1.length ∧
        row.count 1 = 1 ∧ ∀ x ∈ row, x = 0 ∨ x = 1 := by
  intro κ _ col
  refine ⟨firstDedup_nodup col, fun c => mem_firstDedup col c, by simp [getDummies], ?_⟩
  intro row hrow
  simp only [getDummies] at hrow ⊢
  obtain ⟨v, hv, rfl⟩ := List.mem_map.mp hrow
  refine ⟨by simp, indicator_count_one v (firstDedup col) (firstDedup_nodup col)
    ((mem_firstDedup col v).mpr hv), ?_⟩
  intro x hx
  obtain ⟨c, _, rfl⟩ := List.mem_map.mp hx
  by_cases h : v = c
  · rw [if_pos h]
    exact Or.inr rfl
  · rw [if_neg h]
    exact Or.inl rfl

/-- C8, instantiated on the notebook's key column
`['b','b','a','c','a','b']` (3 distinct values, 6 rows): the categories
are duplicate-free, there are 6 indicator rows, and the first row
`[1,0,0]` holds exactly one 1. -/
theorem getDummies_spec_witness :
    (getDummies ['b','b','a','c','a','b']).1.Nodup ∧
    (getDummies ['b','b','a','c','a','b']).2.length = 6 ∧
    List.count 1 [1,0,0] = 1 := by
  have h := getDummies_spec Char ['b','b','a','c','a','b']
  have hm := h.2.2.2 [1,0,0] (by decide)
  exact ⟨h.1, h.2.2.1, hm.2.1⟩

/-- Embedding of `DataFrame.stack()` on a rectangular table with row
labels `rows`, column labels `cols` and cell matrix `data` (row-major):
the series of `((row-label, column-label), value)` entries, row block by
row block. -/
def stack {ρ γ : Type} (rows : List ρ) (cols : List γ) (data : List (List Int)) :
    List ((ρ × γ) × Int) :=
  (rows.zip data).flatMap fun p => (cols.zip p.2).map fun q => ((p.1, q.1), q.2)

/-- Value of the first entry of a stacked series carrying the hierarchical
index `(r, c)`. -/
def cellLookup {ρ γ : Type} [DecidableEq ρ] [DecidableEq γ]
    (s : List ((ρ × γ) × Int)) (r : ρ) (c : γ) : Option Int :=
  (s.find? fun e => e.1 = (r, c)).map fun e => e.2

/-- Embedding of `Series.unstack()`: recover the outer labels, the inner
labels and the cell matrix from a stacked series (labels in order of first
appearance, which on a freshly stacked table is the original order). -/
def unstack {ρ γ : Type} [DecidableEq ρ] [DecidableEq γ] (s : List ((ρ × γ) × Int)) :
    List ρ × List γ × List (List Int) :=
  (firstDedup (s.map fun e => e.1.1),
   firstDedup (s.map fun e => e.1.2),
   (firstDedup (s.map fun e => e.1.1)).map fun r =>
     (firstDedup (s.map fun e => e.1.2)).map fun c => (cellLookup s r c).getD 0)

theorem firstDedup_go_replicate_mem {α : Type} [DecidableEq α] (a : α) :
    ∀ (k : Nat) (acc : List α), a ∈ acc →
      (List.replicate k a).foldl (fun acc x => if x ∈ acc then acc else acc ++ [x]) acc
        = acc := by
  intro k
  induction k with
  | zero => intro acc _; rfl
  | succ n ih =>
      intro acc ha
      rw [List.replicate_succ, List.foldl_cons, if_pos ha]
      exact ih acc ha

theorem firstDedup_go_subset {α : Type} [DecidableEq α] :
    ∀ (l acc : List α), (∀ x ∈ l, x ∈ acc) →
      l.foldl (fun acc x => if x ∈ acc then acc else acc ++ [x]) acc = acc := by
  intro l
  induction l with
  | nil => intro acc _; rfl
  | cons a l ih =>
      intro acc h
      rw [List.foldl_cons, if_pos (h a (List.mem_cons_self a l))]
      exact ih acc fun x hx => h x (List.mem_cons_of_mem a hx)

theorem firstDedup_go_fresh {α : Type} [DecidableEq α] :
    ∀ (l acc : List α), l.Nodup → (∀ x ∈ l, x ∉ acc) →
      l.foldl (fun acc x => if x ∈ acc then acc else acc ++ [x]) acc = acc ++ l := by
  intro l
  induction l with
  | nil => intro acc _ _; simp
  | cons a l ih =>
      intro acc hnd hdis
      obtain ⟨hal, hl⟩ := List.nodup_cons.mp hnd
      rw [List.foldl_cons, if_neg (hdis a (List.mem_cons_self a l)), ih (acc ++ [a]) hl]
      · simp
      · intro x hx
        rw [List.mem_append, List.mem_singleton]
        rintro (h | h)
        · exact hdis x (List.mem_cons_of_mem a hx) h
        · exact hal (h ▸ hx)

theorem firstDedup_go_blocks {α β : Type} [DecidableEq α] (g : β → α) (k : β → Nat) :
    ∀ (L : List β) (acc : List α),
      (L.map g).Nodup → (∀ b ∈ L, 0 < k b) → (∀ b ∈ L, g b ∉ acc) →
      (L.flatMap fun b => List.replicate (k b) (g b)).foldl
        (fun acc x => if x ∈ acc then acc else acc ++ [x]) acc = acc ++ L.map g := by
  intro L
  induction L with
  | nil => intro acc _ _ _; simp
  | cons b L ih =>
      intro acc hnd hk hdis
      rw [List.map_cons] at hnd
      obtain ⟨hgbL, hnd'⟩ := List.nodup_cons.mp hnd
      have hkb : 0 < k b := hk b (List.mem_cons_self b L)
      have hgb : g b ∉ acc := hdis b (List.mem_cons_self b L)
      have hrep : (List.replicate (k b) (g b)).foldl
          (fun acc x => if x ∈ acc then acc else acc ++ [x]) acc = acc ++ [g b] := by
        obtain ⟨m, hm⟩ : ∃ m, k b = m + 1 := ⟨k b - 1, by omega⟩
        rw [hm, List.replicate_succ, List.foldl_cons, if_neg hgb]
        exact firstDedup_go_replicate_mem (g b) m (acc ++ [g b]) (by simp)
      rw [List.flatMap_cons, List.foldl_append, hrep,
        ih (acc ++ [g b]) hnd' (fun x hx => hk x (List.mem_cons_of_mem b hx)) ?_]
      · rw [List.map_cons]
        simp
      · intro x hx
        rw [List.mem_append, List.mem_singleton]
        rintro (h | h)
        · exact hdis x (List.mem_cons_of_mem b hx) h
        · exact hgbL (h ▸ List.mem_map_of_mem g hx)

theorem firstDedup_go_repeat {α β : Type} [DecidableEq α] (cols : List α) :
    ∀ (ps : List β) (acc : List α), (∀ c ∈ cols, c ∈ acc) →
      (ps.flatMap fun _ => cols).foldl
        (fun acc x => if x ∈ acc then acc else acc ++ [x]) acc = acc := by
  intro ps
  induction ps with
  | nil => intro acc _; rfl
  | cons p ps ih =>
      intro acc h
      rw [List.flatMap_cons, List.foldl_append, firstDedup_go_subset cols acc h]
      exact ih acc h

theorem stack_map_fst {ρ γ : Type} (cols : List γ) :
    ∀ (ps : List (ρ × List Int)),
      ((ps.flatMap fun p => (cols.zip p.2).map fun q => ((p.1, q.1), q.2)).map
          fun e => e.1.1)
        = ps.flatMap fun p => List.replicate (cols.zip p.2).length p.1 := by
  intro ps
  induction ps with
  | nil => rfl
  | cons p ps ih =>
      rw [List.flatMap_cons, List.flatMap_cons, List.map_append, ih, List.map_map]
      congr 1
      have hmap : ∀ (l : List (γ × Int)),
          l.map ((fun (e : (ρ × γ) × Int) => e.1.1) ∘ fun q => ((p.1, q.1), q.2)) =
            List.replicate l.length p.1 := by
        intro l
        induction l with
        | nil => rfl
        | cons q qs ihq =>
            rw [List.map_cons, ihq, List.length_cons, List.replicate_succ]
            rfl
      exact hmap (cols.zip p.2)

theorem stack_map_snd {ρ γ : Type} (cols : List γ) :
    ∀ (ps : List (ρ × List Int)), (∀ p ∈ ps, p.2.length = cols.length) →
      ((ps.flatMap fun p => (cols.zip p.2).map fun q => ((p.1, q.1), q.2)).map
          fun e => e.1.2)
        = ps.flatMap fun _ => cols := by
  intro ps
  induction ps with
  | nil => intro _; rfl
  | cons p ps ih =>
      intro hrect
      rw [List.flatMap_cons, List.flatMap_cons, List.map_append,
        ih fun x hx => hrect x (List.mem_cons_of_mem p hx), List.map_map]
      congr 1
      calc (cols.zip p.2).map ((fun (e : (ρ × γ) × Int) => e.1.2) ∘ fun q => ((p.1, q.1), q.2))
          = (cols.zip p.2).map Prod.fst := by
            apply List.map_congr_left
            intro q _
            rfl
      _ = cols :=
            List.map_fst_zip cols p.2 (le_of_eq (hrect p (List.mem_cons_self p ps)).symm)

theorem unstack_rows_of_stack {ρ γ : Type} [DecidableEq ρ] (rows : List ρ) (cols : List γ)
    (data : List (List Int)) (hndr : rows.Nodup) (hc : cols ≠ [])
    (hlen : data.length = rows.length) (hrect : ∀ d ∈ data, d.length = cols.length) :
    firstDedup ((stack rows cols data).map fun e => e.1.1) = rows := by
  rw [stack, stack_map_fst, firstDedup]
  have h1 : ((rows.zip data).map Prod.fst).Nodup := by
    rw [List.map_fst_zip rows data (by omega)]
    exact hndr
  have h2 : ∀ p ∈ rows.zip data, 0 < (cols.zip p.2).length := by
    intro p hp
    have hpd : p.2.length = cols.length := hrect p.2 (List.of_mem_zip hp).2
    rw [List.length_zip, hpd]
    simpa using List.length_pos.mpr hc
  have h3 : ∀ p ∈ rows.zip data, (Prod.fst p) ∉ ([] : List ρ) :=
    fun p _ => List.not_mem_nil _
  rw [firstDedup_go_blocks Prod.fst (fun p => (cols.zip p.2).length) (rows.zip data) []
    h1 h2 h3, List.nil_append, List.map_fst_zip rows data (by omega)]

theorem unstack_cols_of_stack {ρ γ : Type} [DecidableEq γ] (rows : List ρ) (cols : List γ)
    (data : List (List Int)) (hndc : cols.Nodup) (hr : rows ≠ [])
    (hlen : data.length = rows.length) (hrect : ∀ d ∈ data, d.length = cols.length) :
    firstDedup ((stack rows cols data).map fun e => e.1.2) = cols := by
  have hrectz : ∀ p ∈ rows.zip data, p.2.length = cols.length :=
    fun p hp => hrect p.2 (List.of_mem_zip hp).2
  rw [stack, stack_map_snd cols (rows.zip data) hrectz, firstDedup]
  have hzlen : 0 < (rows.zip data).length := by
    rw [List.length_zip, hlen]
    simpa using List.length_pos.mpr hr
  rcases hzip : rows.zip data with _ | ⟨p0, ps'⟩
  · exact absurd (hzip ▸ hzlen) (by simp)
  · rw [List.flatMap_cons, List.foldl_append,
      firstDedup_go_fresh cols [] hndc fun x _ => List.not_mem_nil x,
      List.nil_append, firstDedup_go_repeat cols ps' cols fun c hmem => hmem]

theorem cellLookup_cons_hit {ρ γ : Type} [DecidableEq ρ] [DecidableEq γ]
    (r : ρ) (c : γ) (x : Int) (s : List ((ρ × γ) × Int)) :
    cellLookup (((r, c), x) :: s) r c = some x := by
  rw [cellLookup, List.find?_cons_of_pos _ (by simp)]
  rfl

theorem cellLookup_cons_skip {ρ γ : Type} [DecidableEq ρ] [DecidableEq γ]
    (e : (ρ × γ) × Int) (s : List ((ρ × γ) × Int)) (r : ρ) (c : γ)
    (h : e.1 ≠ (r, c)) :
    cellLookup (e :: s) r c = cellLookup s r c := by
  rw [cellLookup, List.find?_cons_of_neg _ (by simpa using h), cellLookup]

theorem cellLookup_append_skip {ρ γ : Type} [DecidableEq ρ] [DecidableEq γ]
    (s1 s2 : List ((ρ × γ) × Int)) (r : ρ) (c : γ)
    (h : ∀ e ∈ s1, e.1.1 ≠ r) :
    cellLookup (s1 ++ s2) r c = cellLookup s2 r c := by
  rw [cellLookup, List.find?_append, cellLookup]
  have hnone : s1.find? (fun e => e.1 = (r, c)) = none := by
    rw [List.find?_eq_none]
    intro e he
    simp only [decide_eq_true_eq]
    intro heq
    exact h e he (by rw [heq])
  rw [hnone, Option.none_or]

theorem cellLookup_block {ρ γ : Type} [DecidableEq ρ] [DecidableEq γ] (r : ρ)
    (s2 : List ((ρ × γ) × Int)) :
    ∀ (cols : List γ) (d : List Int), cols.Nodup → d.length = cols.length →
      cols.map (fun c =>
        (cellLookup (((cols.zip d).map fun q => ((r, q.1), q.2)) ++ s2) r c).getD 0)
        = d := by
  intro cols
  induction cols with
  | nil =>
      intro d _ hd
      rw [List.length_nil] at hd
      rw [List.length_eq_zero.mp hd]
      rfl
  | cons c0 cs ih =>
      intro d hnd hd
      rcases d with _ | ⟨x, xs⟩
      · rw [List.length_nil] at hd
        exact absurd hd.symm (by simp)
      · obtain ⟨hc0, hcs⟩ := List.nodup_cons.mp hnd
        rw [List.zip_cons_cons,
          List.map_cons (fun q => ((r, q.1), q.2)) (c0, x) (cs.zip xs),
          List.cons_append, List.map_cons]
        congr 1
        · rw [cellLookup_cons_hit]
          rfl
        · have hskip : ∀ c ∈ cs,
              (cellLookup (((r, c0), x) ::
                  (((cs.zip xs).map fun q => ((r, q.1), q.2)) ++ s2)) r c).getD 0 =
              (cellLookup (((cs.zip xs).map fun q => ((r, q.1), q.2)) ++ s2) r c).getD 0 := by
            intro c hc
            refine congrArg (fun o => o.getD 0) (cellLookup_cons_skip _ _ r c ?_)
            simp only [ne_eq, Prod.mk.injEq, not_and]
            intro _ h0
            subst h0
            exact hc0 hc
          rw [List.map_congr_left hskip]
          exact ih xs hcs (by simpa using hd)

theorem stack_key_mem {ρ γ : Type} (cols : List γ)
    (ps : List (ρ × List Int)) (e : (ρ × γ) × Int)
    (he : e ∈ ps.flatMap fun p => (cols.zip p.2).map fun q => ((p.1, q.1), q.2)) :
    e.1.1 ∈ ps.map Prod.fst := by
  obtain ⟨p, hp, hep⟩ := List.mem_flatMap.mp he
  obtain ⟨q, _, rfl⟩ := List.mem_map.mp hep
  exact List.mem_map_of_mem Prod.fst hp

theorem unstack_data_gen {ρ γ : Type} [DecidableEq ρ] [DecidableEq γ] (cols : List γ)
    (hndc : cols.Nodup) :
    ∀ (ps : List (ρ × List Int)), (ps.map Prod.fst).Nodup →
      (∀ p ∈ ps, p.2.length = cols.length) →
      ps.map (fun p => cols.map fun c =>
        (cellLookup (ps.flatMap fun p' => (cols.zip p'.2).map fun q => ((p'.1, q.1), q.2))
          p.1 c).getD 0) = ps.map Prod.snd := by
  intro ps
  induction ps with
  | nil => intro _ _; rfl
  | cons p0 rest ih =>
      intro hnd hrect
      rw [List.map_cons] at hnd
      obtain ⟨hp0, hnd'⟩ := List.nodup_cons.mp hnd
      have hblockkey : ∀ e ∈ (cols.zip p0.2).map fun q => ((p0.1, q.1), q.2),
          e.1.1 = p0.1 := by
        intro e he
        obtain ⟨q, _, rfl⟩ := List.mem_map.mp he
        rfl
      rw [List.map_cons, List.map_cons, List.flatMap_cons]
      congr 1
      · exact cellLookup_block p0.1 _ cols p0.2 hndc (hrect p0 (List.mem_cons_self p0 rest))
      · have hcongr : ∀ p ∈ rest,
            (cols.map fun c =>
              (cellLookup
                (((cols.zip p0.2).map fun q => ((p0.1, q.1), q.2)) ++
                  (rest.flatMap fun p' => (cols.zip p'.2).map fun q => ((p'.1, q.1), q.2)))
                p.1 c).getD 0) =
            cols.map fun c =>
              (cellLookup (rest.flatMap fun p' => (cols.zip p'.2).map fun q =>
                ((p'.1, q.1), q.2)) p.1 c).getD 0 := by
          intro p hp
          apply List.map_congr_left
          intro c _
          refine congrArg (fun o => o.getD 0) (cellLookup_append_skip _ _ p.1 c ?_)
          intro e he
          rw [hblockkey e he]
          intro hcontra
          apply hp0
          rw [hcontra]
          exact List.mem_map_of_mem Prod.fst hp
        rw [List.map_congr_left hcongr]
        exact ih hnd' fun x hx => hrect x (List.mem_cons_of_mem p0 hx)

/-- C5: stacking a fully populated rectangular table (duplicate-free row
and column labels, at least one row and one column, every data row of the
column count's width) and then unstacking reproduces the original table —
row labels, column labels and cell matrix — exactly. -/
theorem stack_unstack_roundtrip :
    ∀ (ρ γ : Type) [DecidableEq ρ] [DecidableEq γ]
      (rows : List ρ) (cols : List γ) (data : List (List Int)),
      rows.Nodup → cols.Nodup → rows ≠ [] → cols ≠ [] →
      data.length = rows.length → (∀ d ∈ data, d.length = cols.length) →
      unstack (stack rows cols data) = (rows, cols, data) := by
  intro ρ γ instρ instγ rows cols data hndr hndc hr hc hlen hrect
  have hrows := unstack_rows_of_stack rows cols data hndr hc hlen hrect
  have hcols := unstack_cols_of_stack rows cols data hndc hr hlen hrect
  rw [unstack, hrows, hcols]
  simp only [Prod.mk.injEq]
  refine ⟨trivial, trivial, ?_⟩
  have hnd' : ((rows.zip data).map Prod.fst).Nodup := by
    rw [List.map_fst_zip rows data (by omega)]
    exact hndr
  have hrect' : ∀ p ∈ rows.zip data, p.2.length = cols.length :=
    fun p hp => hrect p.2 (List.of_mem_zip hp).2
  have hd := unstack_data_gen cols hndc (rows.zip data) hnd' hrect'
  rw [stack]
  set S := (rows.zip data).flatMap fun p => (cols.zip p.2).map fun q => ((p.1, q.1), q.2)
  rw [show rows = (rows.zip data).map Prod.fst from
    (List.map_fst_zip rows data (by omega)).symm, List.map_map]
  have h2 : (rows.zip data).map
        ((fun r => cols.map fun c => (cellLookup S r c).getD 0) ∘ Prod.fst)
      = (rows.zip data).map (fun p => cols.map fun c => (cellLookup S p.1 c).getD 0) :=
    List.map_congr_left fun p _ => rfl
  rw [h2, hd, List.map_snd_zip rows data (by omega)]

/-- C5, instantiated on the notebook's table: index `['Ohio', 'Colorado']`,
columns `['one', 'two', 'three']`, values `np.arange(6).reshape((2, 3))`. -/
theorem stack_unstack_roundtrip_witness :
    unstack (stack ["Ohio", "Colorado"] ["one", "two", "three"]
        [[0, 1, 2], [3, 4, 5]]) =
      (["Ohio", "Colorado"], ["one", "two", "three"], [[0, 1, 2], [3, 4, 5]]) :=
  stack_unstack_roundtrip String String ["Ohio", "Colorado"] ["one", "two", "three"]
    [[0, 1, 2], [3, 4, 5]] (by decide) (by decide) (by decide) (by decide) (by decide)
    (by decide)

/-- State of the notebook's variable bindings for the cells the frame
claims touch: merge inputs `df1`/`df3` and the merge result, the three
series fed to `pd.concat` and its result, the pivot table (row labels,
column labels, cell matrix) and the stacked series bound to `result`, the
`ages`/`bins` inputs of `pd.cut` and the categories bound to `cats`, the
key column fed to `pd.get_dummies` and its result, and the numeric column
`data` targeted by the outlier-capping assignment. -/
structure NotebookState where
  df1 : Frame Char
  df3 : Frame Char
  merged : List (Char × Int × Int)
  s1 : Frame Char
  s2 : Frame Char
  s3 : Frame Char
  concatRes : Frame Char
  tblRows : List String
  tblCols : List String
  tblData : List (List Int)
  stackRes : List ((String × String) × Int)
  ages : List Int
  bins : List Int
  cats : List (Option Nat)
  dfKey : List Char
  dummiesRes : List (List Nat)
  data : List Int

/-- Cell `pd.merge(df1, df3, on='key')`: computes a new frame from
`df1` and `df3`. -/
def mergeCell (s : NotebookState) : NotebookState :=
  { s with merged := innerJoin s.df1 s.df3 }

/-- Cell `pd.concat([s1, s2, s3])` (axis 0): stacks the three series into
a new longer series. -/
def concatCell (s : NotebookState) : NotebookState :=
  { s with concatRes := s.s1 ++ s.s2 ++ s.s3 }

/-- Cell `result = data.stack()`: pivots the two-dimensional table into a
new hierarchically indexed series bound to the fresh name `result`. -/
def stackCell (s : NotebookState) : NotebookState :=
  { s with stackRes := stack s.tblRows s.tblCols s.tblData }

/-- Cell `result.unstack()`: the notebook displays the unstacked table and
does not assign it, so the state is untouched. -/
def unstackDisplayCell (s : NotebookState) : NotebookState := s

/-- Cell `cats = pd.cut(ages, bins)`: bins the `ages` values with the
default right-closed edges into a new categorical bound to `cats`. -/
def cutCell (s : NotebookState) : NotebookState :=
  { s with cats := s.ages.map (cutIdx s.bins true) }

/-- Cell `pd.get_dummies(df['key'])`: computes the indicator rows from the
key column. -/
def dummiesCell (s : NotebookState) : NotebookState :=
  { s with dummiesRes := (getDummies s.dfKey).2 }

/-- Cell `data.drop_duplicates()`: the notebook displays the result and
does not assign it, so the state is untouched. -/
def dropDuplicatesCell (s : NotebookState) : NotebookState := s

/-- Cell `data[np.abs(data) > 3] = np.sign(data) * 3`: an in-place
assignment that overwrites the dataset bound to `data` with its capped
version. -/
def capOutliersCell (s : NotebookState) : NotebookState :=
  { s with data := capColumn 3 s.data }

/-- State used to exhibit the in-place capping mutation: `data` holds an
outlier value 5. -/
def stateEx : NotebookState :=
  { df1 := df1ex, df3 := df3ex, merged := [], s1 := [], s2 := [], s3 := [],
    concatRes := [], tblRows := [], tblCols := [], tblData := [], stackRes := [],
    ages := [], bins := [], cats := [], dfKey := [], dummiesRes := [],
    data := [5, -4, 2] }

/-- C9 counterexample: the outlier-capping cell does not leave its input
dataset unchanged — running it on a state whose `data` column holds the
outlier 5 changes `data` (to `[3, -3, 2]`). -/
theorem capOutliersCell_mutates :
    (capOutliersCell stateEx).data = [3, -3, 2] ∧
    (capOutliersCell stateEx).data ≠ stateEx.data := by
  constructor
  · rfl
  · decide

/-- C9 (amended): the merge, concatenation, pivot (stack), binning and
dummy-encoding cells each produce a new dataset and leave every input
binding unchanged, and the displayed `unstack` and `drop_duplicates`
calls touch nothing; the one exception is the outlier-capping assignment,
which overwrites the binding `data` with the capped column instead of
leaving its input dataset unchanged. -/
theorem notebook_cells_frame_effects :
    ∀ (s : NotebookState),
      (mergeCell s).df1 = s.df1 ∧ (mergeCell s).df3 = s.df3 ∧
      (mergeCell s).merged = innerJoin s.df1 s.df3 ∧
      (concatCell s).s1 = s.s1 ∧ (concatCell s).s2 = s.s2 ∧
      (concatCell s).s3 = s.s3 ∧
      (concatCell s).concatRes = s.s1 ++ s.s2 ++ s.s3 ∧
      (stackCell s).tblRows = s.tblRows ∧ (stackCell s).tblCols = s.tblCols ∧
      (stackCell s).tblData = s.tblData ∧
      (stackCell s).stackRes = stack s.tblRows s.tblCols s.tblData ∧
      unstackDisplayCell s = s ∧
      (cutCell s).ages = s.ages ∧ (cutCell s).bins = s.bins ∧
      (cutCell s).cats = s.ages.map (cutIdx s.bins true) ∧
      (dummiesCell s).dfKey = s.dfKey ∧
      (dummiesCell s).dummiesRes = (getDummies s.dfKey).2 ∧
      dropDuplicatesCell s = s ∧
      (capOutliersCell s).data = capColumn 3 s.data :=
  fun _ => ⟨rfl, rfl, rfl, rfl, rfl, rfl, rfl, rfl, rfl, rfl, rfl, rfl, rfl, rfl, rfl,
    rfl, rfl, rfl, rfl⟩
